import Mathlib

/-!
Verification of the virtio-net driver core (`src/net/virtio.cc`).

The development shallowly embeds the data model and operations of the
driver: the TX virtio-net header construction (`txq::post`), the kick
suppression logic (`vring::kick`), the descriptor allocation / free list
(`allocate_desc` / `free_desc`), the chain walk of `do_complete`, chain
publication (`vring::post`), the RX mergeable-buffer reassembly
(`rxq::prepare_buffers`'s completion handler) and the `ring_size`
option getter.  Machine integers are modelled as `Nat` with explicit
reductions modulo 2^16 (uint16_t) and 2^64 (size_t) at the points where
the C code converts or wraps.
-/

namespace Virtio

/-- Conversion of a C `int` value to `uint16_t`: reduce modulo 2^16
(this is what an assignment of an `int` to a `uint16_t` field does). -/
def toU16 (x : Int) : Nat := (x % 65536).toNat

/-- `size_t` subtraction `a - b`, wrapping modulo 2^64. -/
def sub64 (a b : Nat) : Nat := (((a : Int) - (b : Int)) % (2 ^ 64)).toNat

/-! ## TX virtio-net header construction (`virtio_net_device::txq::post`) -/

/-- IP protocol selector carried in `offload_info` (`oi.protocol` is
compared against `ip_protocol_num::tcp` and `ip_protocol_num::udp`). -/
inductive ip_protocol_num where
  | tcp
  | udp
  | other
deriving DecidableEq, Repr

/-- Per-packet offload metadata (`packet::offload_info`); header length
fields are `uint8_t` in the stack, modelled as `Nat`. -/
structure offload_info where
  protocol : ip_protocol_num
  ip_hdr_len : Nat
  tcp_hdr_len : Nat
  udp_hdr_len : Nat
deriving DecidableEq, Repr

/-- Negotiated hardware features (`net::hw_features`), the fields
`txq::post` reads. -/
structure hw_features where
  tx_csum_offload : Bool
  tx_tso : Bool
  tx_ufo : Bool
  mtu : Nat
deriving DecidableEq, Repr

/-- The virtio-net header (`virtio_net_device::net_hdr`); bit-field and
`uint16_t` members modelled as `Nat`. -/
structure net_hdr where
  needs_csum : Nat
  gso_type : Nat
  hdr_len : Nat
  gso_size : Nat
  csum_start : Nat
  csum_offset : Nat
deriving DecidableEq, Repr

/-- `net_hdr::gso_none`. -/
def gso_none : Nat := 0
/-- `net_hdr::gso_tcpv4`. -/
def gso_tcpv4 : Nat := 1
/-- `net_hdr::gso_udp`. -/
def gso_udp : Nat := 3

/-- Modelled from the spec: `sizeof(eth_hdr)` — the Ethernet header the
TX path measures is 14 bytes (the spec's `csum_start = 34 = eth + ip`
with `ip = 20`); the `eth_hdr` definition itself lives in a header that
is not part of the sources. -/
def eth_hdr_len : Nat := 14

/-- The zero-initialised header `net_hdr_mrg vhdr = {}` of `txq::post`. -/
def zero_hdr : net_hdr := ⟨0, 0, 0, 0, 0, 0⟩

/-- The header-field computation of `virtio_net_device::txq::post`
(`src/net/virtio.cc` lines 417–453): starting from a zeroed header,
fill the checksum/GSO fields from the offload metadata when
`tx_csum_offload` is negotiated.  `plen` is `p.len()`. -/
def txq_post_header (hf : hw_features) (oi : offload_info) (plen : Nat) : net_hdr :=
  if hf.tx_csum_offload then
    if oi.protocol = ip_protocol_num.tcp then
      let base : net_hdr :=
        { zero_hdr with
          needs_csum := 1
          csum_start := (eth_hdr_len + oi.ip_hdr_len) % 65536
          csum_offset := 16 }
      if hf.tx_tso ∧ plen > hf.mtu + eth_hdr_len then
        { base with
          gso_type := gso_tcpv4
          hdr_len := (eth_hdr_len + oi.ip_hdr_len + oi.tcp_hdr_len) % 65536
          gso_size := toU16 ((hf.mtu : Int) - (oi.ip_hdr_len : Int) - (oi.tcp_hdr_len : Int)) }
      else base
    else if oi.protocol = ip_protocol_num.udp then
      let base : net_hdr :=
        { zero_hdr with
          needs_csum := 1
          csum_start := (eth_hdr_len + oi.ip_hdr_len) % 65536
          csum_offset := 6 }
      if hf.tx_ufo ∧ plen > hf.mtu + eth_hdr_len then
        { base with
          gso_type := gso_udp
          hdr_len := (eth_hdr_len + oi.ip_hdr_len + oi.udp_hdr_len) % 65536
          gso_size := toU16 ((hf.mtu : Int) - (oi.ip_hdr_len : Int) - (oi.udp_hdr_len : Int)) }
      else base
    else zero_hdr
  else zero_hdr

/-! ## TX permit accounting (`virtio_net_device::txq::post`, lines 455–475) -/

/-- `packet q = packet(fragment{&vhdr, header_len}, std::move(p))`:
prepending the virtio-net header adds one fragment in front of the
payload fragments.  A packet is modelled by the list of its fragment
sizes. -/
def packet_prepend_header (header_len : Nat) (frag_sizes : List Nat) : List Nat :=
  header_len :: frag_sizes

/-- The argument `txq::post` passes to
`_ring.available_descriptors().wait(nr_frags)`: the fragment count of
the packet after the header was prepended. -/
def txq_post_wait_permits (header_len : Nat) (frag_sizes : List Nat) : Nat :=
  (packet_prepend_header header_len frag_sizes).length

/-! ## `virtio_net_device::ring_size` (lines 643–649) -/

/-- The slice of `boost::program_options::variables_map` the getter
reads: `count` of an option name, and the stored value of
`virtio-ring-size`. -/
structure variables_map where
  count : String → Nat
  virtio_ring_size_value : Nat

/-- `virtio_net_device::ring_size`: return the `virtio-ring-size` value
iff `_opts.count("event-index")` is non-zero, else 256. -/
def ring_size (opts : variables_map) : Nat :=
  if opts.count "event-index" ≠ 0 then opts.virtio_ring_size_value else 256

/-! ## Kick suppression (`vring::kick`, lines 199–215) -/

/-- The state `vring::kick` reads: the negotiated `event_index` flag,
the published `avail` index and the host-written `avail_event` (both
`uint16_t`), the `NO_NOTIFY` bit of the used ring's flags and the
`uint16_t` counter `_avail._avail_added_since_kick`. -/
structure kick_state where
  event_index : Bool
  avail_idx : Nat
  avail_event : Nat
  no_notify : Bool
  added : Nat
deriving DecidableEq, Repr

/-- `vring::kick`: returns whether `_kick.signal(1)` is invoked and the
resulting `_avail._avail_added_since_kick`.  In the event-index branch
`need_kick = (uint16_t)(avail_idx - avail_event - 1) < added`; in the
other branch an early `return` fires when `NO_NOTIFY` is set, otherwise
`need_kick` keeps its initial value `true`.  The signal also fires when
`added >= (uint16_t)(~0) / 2 = 32767`, and resets the counter. -/
def vring_kick (s : kick_state) : Bool × Nat :=
  if s.event_index then
    let need := toU16 ((s.avail_idx : Int) - (s.avail_event : Int) - 1) < s.added
    if need ∨ s.added ≥ 32767 then (true, 0) else (false, s.added)
  else if s.no_notify then
    (false, s.added)
  else
    (true, 0)

/-! ## Descriptor pool, free list and chain reclaim (`vring`) -/

/-- A descriptor (`vring::desc`): `_paddr`, `_len`, the three flag bits
and the `uint16_t` `_next` link. -/
structure desc where
  paddr : Nat
  len : Nat
  has_next : Bool
  writeable : Bool
  indirect : Bool
  next : Nat
deriving DecidableEq, Repr

/-- A zeroed descriptor, used as the `getD` default (every guarded
access is in bounds). -/
def desc0 : desc := ⟨0, 0, false, false, false, 0⟩

/-- The driver-side mutable state of a `vring` that the claims touch:
the descriptor table (`_descs`, length = `_config.size`), the free-list
head `_free_desc : int` (−1 for the empty list at construction), the
`_available_descriptors` semaphore count, the shared available ring
(`_avail._shared->_ring`), the `uint16_t` head counter `_avail._head`
and `_avail._avail_added_since_kick`. -/
structure vring_state where
  descs : List desc
  free_desc : Int
  sem : Nat
  avail_ring : List Nat
  avail_head : Nat
  added : Nat
deriving DecidableEq, Repr

/-- `vring::free_desc(id)`: `_descs[id]._next = _free_desc` (an `int`
stored into a `uint16_t`, hence `toU16`), `_free_desc = id`, and one
`_available_descriptors.signal()`. -/
def free_desc_op (s : vring_state) (id : Nat) : vring_state :=
  { s with
    descs := s.descs.set id { s.descs.getD id desc0 with next := toU16 s.free_desc }
    free_desc := (id : Int)
    sem := s.sem + 1 }

/-- `vring::allocate_desc`: `assert(_free_desc != -1)` (modelled as
`none` on failure), pop the head and follow `_descs[head]._next`;
`none` also marks the out-of-bounds table read that a corrupted head
would perform. -/
def allocate_desc (s : vring_state) : Option (Nat × vring_state) :=
  if s.free_desc = -1 then none
  else
    match s.descs.get? s.free_desc.toNat with
    | none => none
    | some d => some (s.free_desc.toNat, { s with free_desc := (d.next : Int) })

/-- Outcome of the used-element chain walk of `vring::do_complete`:
`done` carries the final state and the ids freed in order; `oob` marks
an out-of-bounds shared-memory access the code performs without any
check; `out_of_fuel` means the loop is still running after the given
number of iterations (the source loop has no bound). -/
inductive walk_result where
  | done : vring_state → List Nat → walk_result
  | oob : Nat → walk_result
  | out_of_fuel : walk_result
deriving DecidableEq, Repr

/-- The inner loop of `vring::do_complete` (lines 310–318): starting
from the used element's id, repeatedly read the descriptor, remember
`_next` and `has_next`, `free_desc` it, and continue while `has_next`
was set.  The source contains no validity check and no cycle
detection. -/
def do_complete_walk (s : vring_state) (id : Nat) : Nat → walk_result
  | 0 => .out_of_fuel
  | fuel + 1 =>
    match s.descs.get? id with
    | none => .oob id
    | some d =>
      let s1 := free_desc_op s id
      if d.has_next then
        match do_complete_walk s1 d.next fuel with
        | .done q tr => .done q (id :: tr)
        | r => r
      else .done s1 [id]

/-- Processing of one used element by `vring::do_complete`: the code
first fulfils `_completions[ue._id]` — an array of `size` promises
indexed by the id with no bounds check (out of bounds whenever
`ue._id ≥ size`) — and then walks and frees the chain. -/
def do_complete_elem (s : vring_state) (ue_id : Nat) (fuel : Nat) : walk_result :=
  if ue_id < s.descs.length then do_complete_walk s ue_id fuel
  else .oob ue_id

/-- `spells_free descs f l`: the free list threaded through the `_next`
fields starting at head `f` spells exactly the ids `l`.  The list ends
when the head is negative (the initial `-1`) or points outside the
table (the `uint16_t`-mangled image `65535` of `-1` after `setup`). -/
def spells_free (descs : List desc) : Int → List Nat → Bool
  | f, [] => decide (f = -1 ∨ ((descs.length : Int) ≤ f ∧ f < 65536))
  | f, a :: l =>
    decide (f = (a : Int)) && decide (a < descs.length) &&
      spells_free descs ((descs.getD a desc0).next : Int) l

/-- All `_next` fields hold `uint16_t` values. -/
def nexts_lt (descs : List desc) : Bool :=
  descs.all fun d => d.next < 65536

/-- `wf_chain descs c`: the ids `c` form a descriptor chain as the host
returns it — each id is in bounds, every descriptor but the last has
`has_next` set and `_next` pointing at its successor, and the last has
`has_next` clear. -/
def wf_chain (descs : List desc) : List Nat → Bool
  | [] => false
  | [a] => decide (a < descs.length) && !(descs.getD a desc0).has_next
  | a :: b :: l =>
    decide (a < descs.length) && (descs.getD a desc0).has_next &&
      decide ((descs.getD a desc0).next = b) && wf_chain descs (b :: l)

/-- `vring::masked`: `idx & (size - 1)`. -/
def masked (size idx : Nat) : Nat := idx &&& (size - 1)

/-- The data fields of `vring::buffer` that `vring::post` copies into
a descriptor (the completion promise it also moves is not needed for
the posted-layout claims). -/
structure vbuffer where
  addr : Nat
  len : Nat
  writeable : Bool
deriving DecidableEq, Repr

/-- A zeroed buffer, used as the `getD` default. -/
def vb0 : vbuffer := ⟨0, 0, false⟩

/-- The per-chain loop of `vring::post` (lines 279–293): iterate the
buffers in reverse (`rbegin` to `rend`), allocate a descriptor for
each, set its flags from the buffer and `has_next` from `has_prev`
(false only for the first reverse-iterated buffer), link `_next` to
the previously allocated descriptor, and return the final
`prev_desc_idx` — the chain head. -/
def post_rev (s : vring_state) (has_prev : Bool) (prev : Nat) :
    List vbuffer → Option (vring_state × Nat)
  | [] => some (s, prev)
  | b :: rest =>
    match allocate_desc s with
    | none => none
    | some (idx, s1) =>
      let d : desc := ⟨b.addr, b.len, has_prev, b.writeable, false, prev⟩
      post_rev { s1 with descs := s1.descs.set idx d } true idx rest

/-- One chain installation of `vring::post` (lines 278–297): run the
reverse loop, then write the head into
`_avail._shared->_ring[masked(_avail._head++)]` and bump
`_avail._avail_added_since_kick` (both `uint16_t`). -/
def post_chain (s : vring_state) (bufs : List vbuffer) : Option vring_state :=
  match post_rev s false 0 bufs.reverse with
  | none => none
  | some (s1, head) =>
    some { s1 with
      avail_ring := s1.avail_ring.set (masked s1.descs.length s1.avail_head) head
      avail_head := (s1.avail_head + 1) % 65536
      added := (s1.added + 1) % 65536 }

/-- A two-descriptor table in which both descriptors carry `HAS_NEXT`
and point at each other: a returned chain over it cycles forever. -/
def cyc_pool : vring_state :=
  ⟨[⟨0, 0, true, false, false, 1⟩, ⟨0, 0, true, false, false, 0⟩], 0, 0, [0, 0], 0, 0⟩

/-- A two-descriptor pool with both chains terminated, used to exercise
a used element whose id is out of range. -/
def small_pool : vring_state :=
  ⟨[⟨0, 0, false, false, false, 0⟩, ⟨0, 0, false, false, false, 0⟩], -1, 0, [0, 0], 0, 0⟩

/-! ## RX mergeable-buffer reassembly (`virtio_net_device::rxq`) -/

/-- A fragment handed to the assembled packet: the owning 4 KiB buffer
(named by an id), the offset of the fragment within it (the header is
skipped in the first buffer) and its length. -/
structure rx_fragment where
  buf : Nat
  off : Nat
  len : Nat
deriving DecidableEq, Repr

/-- The packet built on the last buffer: the accumulated fragments and
the deleter list holding every constituent buffer, released when the
packet is dropped. -/
structure rx_packet where
  frags : List rx_fragment
  deleters : List Nat
deriving DecidableEq, Repr

/-- The reassembly state of `rxq`: `_remaining_buffers`, `_fragments`,
`_deleters`, and the serialized delivery chain `_dev._rx_ready`
(modelled as the FIFO list of packets queued so far). -/
structure rx_state where
  remaining : Nat
  fragments : List rx_fragment
  deleters : List Nat
  delivered : List rx_packet
deriving DecidableEq, Repr

/-- The tail of the completion handler shared by first and subsequent
buffers: append the fragment and the buffer's deleter, decrement
`_remaining_buffers`, and if it reached zero build the packet from the
accumulated fragments with the deleters as release hook and chain it
onto `_dev._rx_ready` (`_deleters` is moved out, `_fragments` is left
and only cleared at the next first buffer). -/
def rx_append (st : rx_state) (fr : rx_fragment) (buf : Nat) : rx_state :=
  let st1 : rx_state :=
    { st with
      fragments := st.fragments ++ [fr]
      deleters := st.deleters ++ [buf]
      remaining := st.remaining - 1 }
  if st1.remaining = 0 then
    { st1 with
      delivered := st1.delivered ++ [⟨st1.fragments, st1.deleters⟩]
      deleters := [] }
  else st1

/-- The per-buffer completion handler installed by
`rxq::prepare_buffers` (lines 499–526) on a buffer `buf` completed with
length `len`; `num_buffers` is the value of `hdr->num_buffers` in the
buffer's data, read only when this is a packet's first buffer
(`_remaining_buffers == 0`), where `assert(hdr->num_buffers >= 1)`
(modelled as `none`), the header is skipped (`frag_buf +=
_dev._header_len; frag_len -= _dev._header_len`, a `size_t`
subtraction) and the fragment and deleter lists are cleared. -/
def rx_handle (header_len : Nat) (st : rx_state) (buf num_buffers len : Nat) :
    Option rx_state :=
  if st.remaining = 0 then
    if num_buffers = 0 then none
    else
      some (rx_append
        { st with remaining := num_buffers, fragments := [], deleters := [] }
        ⟨buf, header_len, sub64 len header_len⟩ buf)
  else
    some (rx_append st ⟨buf, 0, len⟩ buf)

/-- A sequence of buffer completions, each a triple
`(buffer id, header num_buffers, completed length)`, processed in
used-ring order. -/
def rx_run (header_len : Nat) (st : rx_state) :
    List (Nat × Nat × Nat) → Option rx_state
  | [] => some st
  | (b, nb, l) :: es =>
    match rx_handle header_len st b nb l with
    | none => none
    | some st1 => rx_run header_len st1 es

end Virtio

namespace Virtio

/-! ## Theorems -/

/-- C1.  Counterexample to the claim's concrete instantiation: with
`tx_csum_offload` and `tx_tso` on, `mtu = 1500`, `ip_hdr_len = 20`,
`tcp_hdr_len = 20` and a 5000-byte TCP packet, `txq::post` produces
`gso_size = mtu - ip_hdr_len - tcp_hdr_len = 1460`, not the claimed
1448; the remaining fields match the claim. -/
theorem c1_tso_gso_size_counterexample :
    (txq_post_header ⟨true, true, true, 1500⟩ ⟨ip_protocol_num.tcp, 20, 20, 8⟩ 5000).needs_csum = 1 ∧
    (txq_post_header ⟨true, true, true, 1500⟩ ⟨ip_protocol_num.tcp, 20, 20, 8⟩ 5000).csum_start = 34 ∧
    (txq_post_header ⟨true, true, true, 1500⟩ ⟨ip_protocol_num.tcp, 20, 20, 8⟩ 5000).csum_offset = 16 ∧
    (txq_post_header ⟨true, true, true, 1500⟩ ⟨ip_protocol_num.tcp, 20, 20, 8⟩ 5000).gso_type = gso_tcpv4 ∧
    (txq_post_header ⟨true, true, true, 1500⟩ ⟨ip_protocol_num.tcp, 20, 20, 8⟩ 5000).hdr_len = 54 ∧
    (txq_post_header ⟨true, true, true, 1500⟩ ⟨ip_protocol_num.tcp, 20, 20, 8⟩ 5000).gso_size = 1460 ∧
    (txq_post_header ⟨true, true, true, 1500⟩ ⟨ip_protocol_num.tcp, 20, 20, 8⟩ 5000).gso_size ≠ 1448 := by
  decide

/-- C1 (amended).  For every packet sent through `txq::post` with
`tx_csum_offload` enabled: a TCP packet gets `needs_csum = 1`,
`csum_start = eth_hdr_len + ip_hdr_len`, `csum_offset = 16`, and if
`tx_tso` is on and the packet exceeds `mtu + eth_hdr_len` additionally
`gso_type = tcpv4`, `hdr_len = eth + ip + tcp`,
`gso_size = mtu - ip - tcp` (which for mtu = 1500, ip = 20, tcp = 20 is
1460, not 1448); analogously for UDP with `csum_offset = 6`,
`gso_type = udp`, `hdr_len = eth + ip + udp`,
`gso_size = mtu - ip - udp`; with `tx_csum_offload` disabled every
field is zero. -/
theorem c1_tx_header_offload_amended (hf : hw_features) (oi : offload_info) (plen : Nat)
    (hip : oi.ip_hdr_len < 256) (htcp : oi.tcp_hdr_len < 256) (hudp : oi.udp_hdr_len < 256)
    (hmtu : hf.mtu < 65536)
    (htcpfit : oi.ip_hdr_len + oi.tcp_hdr_len ≤ hf.mtu)
    (hudpfit : oi.ip_hdr_len + oi.udp_hdr_len ≤ hf.mtu) :
    (hf.tx_csum_offload = false → txq_post_header hf oi plen = zero_hdr) ∧
    (hf.tx_csum_offload = true → oi.protocol = ip_protocol_num.tcp →
      (txq_post_header hf oi plen).needs_csum = 1 ∧
      (txq_post_header hf oi plen).csum_start = eth_hdr_len + oi.ip_hdr_len ∧
      (txq_post_header hf oi plen).csum_offset = 16 ∧
      (hf.tx_tso = true → plen > hf.mtu + eth_hdr_len →
        (txq_post_header hf oi plen).gso_type = gso_tcpv4 ∧
        (txq_post_header hf oi plen).hdr_len = eth_hdr_len + oi.ip_hdr_len + oi.tcp_hdr_len ∧
        (txq_post_header hf oi plen).gso_size = hf.mtu - oi.ip_hdr_len - oi.tcp_hdr_len) ∧
      ((hf.tx_tso = false ∨ plen ≤ hf.mtu + eth_hdr_len) →
        (txq_post_header hf oi plen).gso_type = gso_none ∧
        (txq_post_header hf oi plen).hdr_len = 0 ∧
        (txq_post_header hf oi plen).gso_size = 0)) ∧
    (hf.tx_csum_offload = true → oi.protocol = ip_protocol_num.udp →
      (txq_post_header hf oi plen).needs_csum = 1 ∧
      (txq_post_header hf oi plen).csum_start = eth_hdr_len + oi.ip_hdr_len ∧
      (txq_post_header hf oi plen).csum_offset = 6 ∧
      (hf.tx_ufo = true → plen > hf.mtu + eth_hdr_len →
        (txq_post_header hf oi plen).gso_type = gso_udp ∧
        (txq_post_header hf oi plen).hdr_len = eth_hdr_len + oi.ip_hdr_len + oi.udp_hdr_len ∧
        (txq_post_header hf oi plen).gso_size = hf.mtu - oi.ip_hdr_len - oi.udp_hdr_len)) := by
  have hmod16 : ∀ a : Nat, a < 65536 → a % 65536 = a := fun a h => Nat.mod_eq_of_lt h
  have hsub : ∀ m i t : Nat, i + t ≤ m → m < 65536 →
      toU16 ((m : Int) - (i : Int) - (t : Int)) = m - i - t := by
    intro m i t hle hlt
    unfold toU16
    omega
  refine ⟨?_, ?_, ?_⟩
  · intro hoff
    simp [txq_post_header, hoff]
  · intro hon hpr
    constructor
    · simp [txq_post_header, hon, hpr]
      split <;> simp
    constructor
    · have hcs : (eth_hdr_len + oi.ip_hdr_len) % 65536 = eth_hdr_len + oi.ip_hdr_len := by
        apply hmod16
        simp [eth_hdr_len]
        omega
      simp [txq_post_header, hon, hpr]
      split <;> simp [hcs]
    constructor
    · simp [txq_post_header, hon, hpr]
      split <;> simp
    constructor
    · intro htso hlen
      have hhd : (eth_hdr_len + oi.ip_hdr_len + oi.tcp_hdr_len) % 65536
          = eth_hdr_len + oi.ip_hdr_len + oi.tcp_hdr_len := by
        apply hmod16
        simp [eth_hdr_len]
        omega
      have hgs := hsub hf.mtu oi.ip_hdr_len oi.tcp_hdr_len htcpfit hmtu
      simp [txq_post_header, hon, hpr, htso, hlen, hhd, hgs, gso_tcpv4]
    · intro hcase
      have hnot : ¬ (hf.tx_tso = true ∧ plen > hf.mtu + eth_hdr_len) := by
        rcases hcase with h | h
        · intro hc
          rw [h] at hc
          exact Bool.false_ne_true hc.1
        · intro hc
          omega
      simp [txq_post_header, hon, hpr, hnot, gso_none, zero_hdr]
  · intro hon hpr
    have hprt : oi.protocol ≠ ip_protocol_num.tcp := by
      rw [hpr]
      intro h
      cases h
    constructor
    · simp [txq_post_header, hon, hpr, hprt]
      split <;> simp
    constructor
    · have hcs : (eth_hdr_len + oi.ip_hdr_len) % 65536 = eth_hdr_len + oi.ip_hdr_len := by
        apply hmod16
        simp [eth_hdr_len]
        omega
      simp [txq_post_header, hon, hpr, hprt]
      split <;> simp [hcs]
    constructor
    · simp [txq_post_header, hon, hpr, hprt]
      split <;> simp
    · intro hufo hlen
      have hhd : (eth_hdr_len + oi.ip_hdr_len + oi.udp_hdr_len) % 65536
          = eth_hdr_len + oi.ip_hdr_len + oi.udp_hdr_len := by
        apply hmod16
        simp [eth_hdr_len]
        omega
      have hgs := hsub hf.mtu oi.ip_hdr_len oi.udp_hdr_len hudpfit hmtu
      simp [txq_post_header, hon, hpr, hprt, hufo, hlen, hhd, hgs, gso_udp]

/-- C1 witness: the amended theorem applied at the TSO scenario
(mtu = 1500, ip = 20, tcp = 20, 5000-byte TCP frame). -/
theorem c1_tx_header_offload_witness :
    (txq_post_header ⟨true, true, true, 1500⟩ ⟨ip_protocol_num.tcp, 20, 20, 8⟩ 5000).gso_type = gso_tcpv4 ∧
    (txq_post_header ⟨true, true, true, 1500⟩ ⟨ip_protocol_num.tcp, 20, 20, 8⟩ 5000).hdr_len = 14 + 20 + 20 ∧
    (txq_post_header ⟨true, true, true, 1500⟩ ⟨ip_protocol_num.tcp, 20, 20, 8⟩ 5000).gso_size = 1500 - 20 - 20 := by
  have h := c1_tx_header_offload_amended ⟨true, true, true, 1500⟩
    ⟨ip_protocol_num.tcp, 20, 20, 8⟩ 5000
    (by decide) (by decide) (by decide) (by decide) (by decide) (by decide)
  have h2 := (h.2.1 rfl rfl).2.2.2.1 rfl (by decide)
  exact ⟨h2.1, h2.2.1, h2.2.2⟩

/-- C8.  `txq::post` waits on the descriptor-availability semaphore for
`nr_frags(p) + 1` permits: the virtio-net header is prepended as an
extra first fragment and the wait argument is the resulting fragment
count. -/
theorem c8_tx_semaphore_permits (header_len : Nat) (frag_sizes : List Nat) :
    txq_post_wait_permits header_len frag_sizes = frag_sizes.length + 1 := by
  simp [txq_post_wait_permits, packet_prepend_header]

/-- C9.  `ring_size` returns the `virtio-ring-size` option value only
when the `event-index` option is present in the map, and 256 otherwise;
in particular a map without `event-index` but with
`virtio-ring-size = 512` still yields 256. -/
theorem c9_ring_size (opts : variables_map) :
    (opts.count "event-index" = 0 → ring_size opts = 256) ∧
    (opts.count "event-index" ≠ 0 → ring_size opts = opts.virtio_ring_size_value) ∧
    ring_size ⟨fun _ => 0, 512⟩ = 256 := by
  refine ⟨fun h => ?_, fun h => ?_, rfl⟩
  · simp [ring_size, h]
  · simp [ring_size, h]

/-- C9 witness: a map containing `event-index` yields the stored ring
size. -/
theorem c9_ring_size_witness :
    ring_size ⟨fun _ => 1, 512⟩ = 512 :=
  (c9_ring_size ⟨fun _ => 1, 512⟩).2.1 (by decide)

/-- C3.  Counterexample: with `event_index` negotiated,
`avail_idx = 0`, `avail_event = 0` and 33000 chains added since the
last kick, the suppression condition of the claim holds
(`(uint16)(avail_idx - avail_event - 1) = 65535 ≥ 33000`), yet
`vring::kick` signals, because the defensive branch
(`added ≥ 32767`) fires. -/
theorem c3_kick_suppression_counterexample :
    33000 ≤ toU16 ((0 : Int) - (0 : Int) - 1) ∧
    (vring_kick ⟨true, 0, 0, false, 33000⟩).1 = true := by
  decide

/-- C3 (amended).  `vring::kick` never signals while notification is
suppressed, except for the defensive kick: with `event_index`
negotiated, no kick is emitted when
`(uint16)(avail_idx - avail_event - 1) ≥ added` **and** the
accumulated count `added` is below the defensive threshold 32767;
without `event_index`, no kick is ever emitted while `NO_NOTIFY` is
set (the function returns before the defensive check). -/
theorem c3_kick_suppression_amended (s : kick_state)
    (h : (s.event_index = true →
            toU16 ((s.avail_idx : Int) - (s.avail_event : Int) - 1) ≥ s.added ∧
            s.added < 32767) ∧
         (s.event_index = false → s.no_notify = true)) :
    (vring_kick s).1 = false := by
  cases he : s.event_index
  · have hn := h.2 he
    simp [vring_kick, he, hn]
  · have hs := h.1 he
    have h1 : ¬ (toU16 ((s.avail_idx : Int) - (s.avail_event : Int) - 1) < s.added) := by
      omega
    have h2 : ¬ (s.added ≥ 32767) := by omega
    simp [vring_kick, he, h1, h2]

/-- C3 witness: the amended theorem at `event_index` on,
`avail_idx = 6`, `avail_event = 6`, one chain added
(`(uint16)(6 - 6 - 1) = 65535 ≥ 1`): no kick. -/
theorem c3_kick_suppression_witness :
    (vring_kick ⟨true, 6, 6, false, 1⟩).1 = false :=
  c3_kick_suppression_amended ⟨true, 6, 6, false, 1⟩
    ⟨fun _ => by decide, fun h => by cases h⟩

/-- C4.  Counterexample: without `event_index` and with `NO_NOTIFY`
set, `vring::kick` returns early and emits no kick even though the
accumulated count 40000 exceeds 32767 — the defensive kick does not
apply "in either kick mode". -/
theorem c4_defensive_kick_counterexample :
    (40000 : Nat) > 32767 ∧
    (vring_kick ⟨false, 0, 0, true, 40000⟩).1 = false ∧
    (vring_kick ⟨false, 0, 0, true, 40000⟩).2 = 40000 := by
  decide

/-- C4 (amended).  The defensive kick applies only when `event_index`
is negotiated: there `vring::kick` signals whenever the accumulated
count reaches 32767, regardless of the event-index test.  Without
`event_index`, the kick decision ignores the count entirely: it
signals iff `NO_NOTIFY` is clear.  Whenever a kick is emitted the
per-cycle counter resets to zero, and whenever none is emitted the
counter is left unchanged. -/
theorem c4_defensive_kick_amended (s : kick_state) :
    (s.event_index = true → s.added ≥ 32767 → (vring_kick s).1 = true) ∧
    (s.event_index = false → ((vring_kick s).1 = true ↔ s.no_notify = false)) ∧
    ((vring_kick s).1 = true → (vring_kick s).2 = 0) ∧
    ((vring_kick s).1 = false → (vring_kick s).2 = s.added) := by
  refine ⟨?_, ?_, ?_, ?_⟩
  · intro he hadd
    simp [vring_kick, he, hadd]
  · intro he
    cases hn : s.no_notify <;> simp [vring_kick, he, hn]
  · intro hk
    simp only [vring_kick] at hk ⊢
    split_ifs at hk ⊢ <;> simp_all
  · intro hk
    simp only [vring_kick] at hk ⊢
    split_ifs at hk ⊢ <;> simp_all

/-- C4 witness: with `event_index` negotiated and 32767 chains
accumulated the kick fires and the counter resets. -/
theorem c4_defensive_kick_witness :
    (vring_kick ⟨true, 5, 5, false, 32767⟩).1 = true ∧
    (vring_kick ⟨true, 5, 5, false, 32767⟩).2 = 0 := by
  have h := c4_defensive_kick_amended ⟨true, 5, 5, false, 32767⟩
  have h1 := h.1 rfl (by decide)
  exact ⟨h1, h.2.2.1 h1⟩

/-! ### Helper lemmas on list access, `toU16` and `sub64` -/

theorem getD_set_self {α : Type} (l : List α) (i : Nat) (d x : α) (h : i < l.length) :
    (l.set i d).getD i x = d := by
  simp [List.getD_eq_getElem?_getD, List.getElem?_set_self h]

theorem getD_set_ne {α : Type} (l : List α) (i j : Nat) (d x : α) (h : i ≠ j) :
    (l.set i d).getD j x = l.getD j x := by
  simp [List.getD_eq_getElem?_getD, List.getElem?_set_ne h]

theorem getD_reverse {α : Type} (l : List α) (j : Nat) (x : α) (h : j < l.length) :
    l.reverse.getD j x = l.getD (l.length - 1 - j) x := by
  simp [List.getD_eq_getElem?_getD, List.getElem?_reverse h]

theorem toU16_lt (f : Int) : toU16 f < 65536 := by
  unfold toU16
  omega

theorem toU16_of_nonneg (f : Int) (h0 : 0 ≤ f) (h : f < 65536) : (toU16 f : Int) = f := by
  unfold toU16
  omega

theorem toU16_neg_one : toU16 (-1) = 65535 := by decide

theorem sub64_of_le (a b : Nat) (h : b ≤ a) (ha : a < 2 ^ 64) : sub64 a b = a - b := by
  unfold sub64
  have e : (2 : Int) ^ 64 = 18446744073709551616 := by norm_num
  have e2 : (2 : Nat) ^ 64 = 18446744073709551616 := by norm_num
  rw [e]
  rw [e2] at ha
  omega

theorem sub64_of_lt (a b : Nat) (h : a < b) (hb : b < 2 ^ 64) : sub64 a b = 2 ^ 64 - (b - a) := by
  unfold sub64
  have e : (2 : Int) ^ 64 = 18446744073709551616 := by norm_num
  have e2 : (2 : Nat) ^ 64 = 18446744073709551616 := by norm_num
  rw [e]
  rw [e2] at hb ⊢
  omega

/-! ### The HAS_NEXT cycle of `do_complete` never terminates -/

/-- On a two-descriptor table where both descriptors carry `HAS_NEXT`
and all links stay inside the table, the chain walk of `do_complete`
runs forever: `free_desc` never clears a `HAS_NEXT` flag, so the loop
condition stays true at every iteration. -/
theorem walk_cyc_loops : ∀ (fuel n0 n1 : Nat) (f : Int) (sem : Nat)
    (ar : List Nat) (ah ad id : Nat),
    n0 < 2 → n1 < 2 → id < 2 → 0 ≤ f → f < 2 →
    do_complete_walk
      ⟨[⟨0, 0, true, false, false, n0⟩, ⟨0, 0, true, false, false, n1⟩], f, sem, ar, ah, ad⟩
      id fuel = .out_of_fuel := by
  intro fuel
  induction fuel with
  | zero => intros; rfl
  | succ n ih =>
    intro n0 n1 f sem ar ah ad id h0 h1 hid hf0 hf2
    have htu : toU16 f < 2 := by
      have h2 := toU16_of_nonneg f hf0 (by omega)
      omega
    interval_cases id
    · have step : do_complete_walk
          ⟨[⟨0, 0, true, false, false, n0⟩, ⟨0, 0, true, false, false, n1⟩], f, sem, ar, ah, ad⟩
          0 (n + 1) =
          (match do_complete_walk
              ⟨[⟨0, 0, true, false, false, toU16 f⟩, ⟨0, 0, true, false, false, n1⟩],
                (0 : Int), sem + 1, ar, ah, ad⟩ n0 n with
            | .done q tr => .done q (0 :: tr)
            | r => r) := rfl
      rw [step, ih (toU16 f) n1 0 (sem + 1) ar ah ad n0 htu h1 h0 (by omega) (by omega)]
    · have step : do_complete_walk
          ⟨[⟨0, 0, true, false, false, n0⟩, ⟨0, 0, true, false, false, n1⟩], f, sem, ar, ah, ad⟩
          1 (n + 1) =
          (match do_complete_walk
              ⟨[⟨0, 0, true, false, false, n0⟩, ⟨0, 0, true, false, false, toU16 f⟩],
                (1 : Int), sem + 1, ar, ah, ad⟩ n1 n with
            | .done q tr => .done q (1 :: tr)
            | r => r) := rfl
      rw [step, ih n0 (toU16 f) 1 (sem + 1) ar ah ad n1 h0 htu h1 (by omega) (by omega)]

/-- C2.  Counterexample: on a two-descriptor ring, a used element with
`id = 2` makes `do_complete` index `_completions[2]` out of bounds with
no check and no abort; a `HAS_NEXT` cycle keeps the reclaim loop
running (here 300 iterations without completing and without aborting);
neither is treated as a fatal protocol violation.  (Only the RX
`num_buffers == 0` case aborts, via `assert`.) -/
theorem c2_no_abort_counterexample :
    do_complete_elem small_pool 2 10 = .oob 2 ∧
    do_complete_walk cyc_pool 0 300 = .out_of_fuel := by
  constructor
  · rfl
  · exact walk_cyc_loops 300 1 0 0 0 [0, 0] 0 0 0 (by decide) (by decide) (by decide)
      (by decide) (by decide)

/-- C2 (amended).  Of the three host protocol violations, only
`num_buffers == 0` in an RX first-buffer header is fatal (the
`assert(hdr->num_buffers >= 1)` aborts the process).  A used element
whose id is outside `[0, size)` is not detected: `do_complete` indexes
the completion array with it unchecked (an out-of-bounds access, not
an abort).  A `HAS_NEXT` cycle is not detected either: the chain walk
loops without terminating (shown for every iteration bound on the
cyclic two-descriptor table). -/
theorem c2_host_violation_amended (fuel header_len buf len : Nat) (st : rx_state)
    (hq : st.remaining = 0) :
    do_complete_elem small_pool 2 fuel = .oob 2 ∧
    do_complete_walk cyc_pool 0 fuel = .out_of_fuel ∧
    rx_handle header_len st buf 0 len = none := by
  refine ⟨rfl, ?_, ?_⟩
  · exact walk_cyc_loops fuel 1 0 0 0 [0, 0] 0 0 0 (by decide) (by decide) (by decide)
      (by decide) (by decide)
  · simp [rx_handle, hq]

/-- C2 witness: the amended theorem at fuel 5 and a quiescent RX state. -/
theorem c2_host_violation_witness :
    do_complete_elem small_pool 2 5 = .oob 2 ∧
    do_complete_walk cyc_pool 0 5 = .out_of_fuel ∧
    rx_handle 12 ⟨0, [], [], []⟩ 3 0 4096 = none :=
  c2_host_violation_amended 5 12 3 4096 ⟨0, [], [], []⟩ rfl

/-- C10.  For a first RX buffer (`_remaining_buffers == 0`) whose
completed length is smaller than the negotiated header length, the
completion handler performs no length validation: the
`num_buffers >= 1` assertion is the only check, the handler proceeds
(`some`), and the fragment length is computed by the wrapping `size_t`
subtraction `len - header_len = 2^64 - (header_len - len)`. -/
theorem c10_rx_short_first_buffer (header_len : Nat) (st : rx_state) (buf nb len : Nat)
    (hq : st.remaining = 0) (hnb : nb ≠ 0) (hshort : len < header_len)
    (hh : header_len < 2 ^ 64) :
    ∃ st', rx_handle header_len st buf nb len = some st' ∧
      st'.fragments = [⟨buf, header_len, 2 ^ 64 - (header_len - len)⟩] := by
  refine ⟨rx_append { st with remaining := nb, fragments := [], deleters := [] }
      ⟨buf, header_len, sub64 len header_len⟩ buf, ?_, ?_⟩
  · simp [rx_handle, hq, hnb]
  · simp only [rx_append]
    split <;> simp [sub64_of_lt len header_len hshort hh]

/-- C10 witness: header length 12, completed length 4: the handler
returns a state (no abort) whose single fragment has the wrapped
length `2^64 - 8`. -/
theorem c10_rx_short_first_buffer_witness :
    ∃ st', rx_handle 12 ⟨0, [], [], []⟩ 9 1 4 = some st' ∧
      st'.fragments = [⟨9, 12, 18446744073709551608⟩] := by
  have h := c10_rx_short_first_buffer 12 ⟨0, [], [], []⟩ 9 1 4 rfl (by decide) (by decide)
    (by norm_num)
  have e : (2 : Nat) ^ 64 - (12 - 4) = 18446744073709551608 := by norm_num
  rw [e] at h
  exact h

/-! ### The descriptor free list -/

theorem get?_eq_some_getD {α : Type} (l : List α) (i : Nat) (d : α) (h : i < l.length) :
    l.get? i = some (l.getD i d) := by
  simp [List.get?_eq_getElem?, List.getD_eq_getElem?_getD, List.getElem?_eq_getElem h]

/-- Mutating the table at an index off the free list does not change
what the free list spells. -/
theorem spells_free_set_notin (descs : List desc) (i : Nat) (d : desc) :
    ∀ (l : List Nat) (f : Int), i ∉ l →
    spells_free (descs.set i d) f l = spells_free descs f l := by
  intro l
  induction l with
  | nil => intro f _; simp [spells_free]
  | cons a t ih =>
    intro f hna
    have hia : i ≠ a := by
      intro h
      exact hna (h ▸ List.mem_cons_self a t)
    simp only [spells_free, List.length_set, getD_set_ne descs i a d desc0 hia]
    rw [ih _ (fun hm => hna (List.mem_cons_of_mem a hm))]

/-- `vring::free_desc` pushes its argument onto the spelled free list
and leaves the remainder intact. -/
theorem spells_free_free_desc (s : vring_state) (id : Nat) (l : List Nat)
    (hsp : spells_free s.descs s.free_desc l = true)
    (hid : id < s.descs.length) (hnotin : id ∉ l)
    (hlen : s.descs.length ≤ 65535) :
    spells_free (free_desc_op s id).descs (free_desc_op s id).free_desc (id :: l) = true := by
  have hgd : ((free_desc_op s id).descs.getD id desc0).next = toU16 s.free_desc := by
    simp only [free_desc_op]
    rw [getD_set_self s.descs id _ desc0 hid]
  simp only [spells_free, Bool.and_eq_true, decide_eq_true_eq]
  refine ⟨⟨rfl, by simp [free_desc_op, hid]⟩, ?_⟩
  rw [hgd]
  have hrw : spells_free (free_desc_op s id).descs ((toU16 s.free_desc : Nat) : Int) l
      = spells_free s.descs ((toU16 s.free_desc : Nat) : Int) l := by
    simp only [free_desc_op]
    exact spells_free_set_notin s.descs id _ l _ hnotin
  rw [hrw]
  cases l with
  | nil =>
    simp only [spells_free, decide_eq_true_eq] at hsp ⊢
    rcases hsp with hm1 | ⟨hge, hlt⟩
    · right
      rw [hm1]
      constructor
      · rw [show toU16 (-1) = 65535 from toU16_neg_one]
        omega
      · have := toU16_lt (-1)
        omega
    · right
      have h0 : (0 : Int) ≤ s.free_desc := le_trans (by omega) hge
      have he := toU16_of_nonneg s.free_desc h0 hlt
      constructor
      · omega
      · have := toU16_lt s.free_desc
        omega
  | cons a t =>
    simp only [spells_free, Bool.and_eq_true, decide_eq_true_eq] at hsp ⊢
    obtain ⟨⟨hf, ha⟩, hrest⟩ := hsp
    have h0 : (0 : Int) ≤ s.free_desc := by rw [hf]; omega
    have he := toU16_of_nonneg s.free_desc h0 (by rw [hf]; omega)
    exact ⟨⟨by rw [he, hf], ha⟩, hrest⟩

/-- Mutating the table at an index off a chain does not change chain
well-formedness. -/
theorem wf_chain_set_notin (descs : List desc) (i : Nat) (d : desc) :
    ∀ (c : List Nat), i ∉ c → wf_chain (descs.set i d) c = wf_chain descs c := by
  intro c
  induction c with
  | nil => intro _; rfl
  | cons a t ih =>
    intro hni
    have hia : i ≠ a := by
      intro h
      exact hni (h ▸ List.mem_cons_self a t)
    cases t with
    | nil => simp only [wf_chain, List.length_set, getD_set_ne descs i a d desc0 hia]
    | cons b t2 =>
      simp only [wf_chain, List.length_set, getD_set_ne descs i a d desc0 hia]
      rw [ih (fun hm => hni (List.mem_cons_of_mem a hm))]

theorem nexts_lt_set (descs : List desc) (i : Nat) (d : desc)
    (h : nexts_lt descs = true) (hd : d.next < 65536) :
    nexts_lt (descs.set i d) = true := by
  simp only [nexts_lt, List.all_eq_true, decide_eq_true_eq] at h ⊢
  intro x hx
  rcases List.mem_or_eq_of_mem_set hx with hm | he
  · exact h x hm
  · rw [he]; exact hd

/-- One step of the `do_complete` chain walk. -/
theorem do_complete_walk_succ (s : vring_state) (id n : Nat) :
    do_complete_walk s id (n + 1) =
      match s.descs.get? id with
      | none => .oob id
      | some d =>
        if d.has_next then
          match do_complete_walk (free_desc_op s id) d.next n with
          | .done q tr => .done q (id :: tr)
          | r => r
        else .done (free_desc_op s id) [id] := rfl

theorem do_complete_walk_step (s : vring_state) (id n : Nat) (d : desc)
    (hget : s.descs.get? id = some d) :
    do_complete_walk s id (n + 1) =
      if d.has_next then
        match do_complete_walk (free_desc_op s id) d.next n with
        | .done q tr => .done q (id :: tr)
        | r => r
      else .done (free_desc_op s id) [id] := by
  rw [do_complete_walk_succ, hget]

/-- The chain walk of `do_complete` on a well-formed chain: it
terminates, frees exactly the chain's descriptors in chain order (each
once — the chain has no duplicates), signals one semaphore permit per
freed descriptor, prepends the freed ids to the free list, and leaves
the avail side untouched. -/
theorem walk_frees : ∀ (rest : List Nat) (a : Nat) (s : vring_state) (fl : List Nat)
    (fuel : Nat),
    wf_chain s.descs (a :: rest) = true →
    (a :: rest).Nodup →
    (∀ x ∈ a :: rest, x ∉ fl) →
    spells_free s.descs s.free_desc fl = true →
    nexts_lt s.descs = true →
    s.descs.length ≤ 65535 →
    rest.length < fuel →
    ∃ q, do_complete_walk s a fuel = .done q (a :: rest) ∧
      q.sem = s.sem + (rest.length + 1) ∧
      spells_free q.descs q.free_desc ((a :: rest).reverse ++ fl) = true ∧
      q.descs.length = s.descs.length ∧
      nexts_lt q.descs = true ∧
      q.avail_ring = s.avail_ring ∧ q.avail_head = s.avail_head ∧ q.added = s.added := by
  intro rest
  induction rest with
  | nil =>
    intro a s fl fuel hwf hnd hdisj hsp hnx hlen hfuel
    obtain ⟨n, rfl⟩ : ∃ n, fuel = n + 1 := ⟨fuel - 1, by omega⟩
    simp only [wf_chain, Bool.and_eq_true, decide_eq_true_eq, Bool.not_eq_true'] at hwf
    obtain ⟨ha, hhn⟩ := hwf
    refine ⟨free_desc_op s a, ?_, by simp [free_desc_op], ?_, by simp [free_desc_op],
      nexts_lt_set s.descs a _ hnx (toU16_lt s.free_desc), rfl, rfl, rfl⟩
    · rw [do_complete_walk_step s a n _ (get?_eq_some_getD s.descs a desc0 ha), hhn,
        if_neg Bool.false_ne_true]
    · simpa using spells_free_free_desc s a fl hsp ha (hdisj a (List.mem_cons_self a [])) hlen
  | cons b rest' ih =>
    intro a s fl fuel hwf hnd hdisj hsp hnx hlen hfuel
    obtain ⟨n, rfl⟩ : ∃ n, fuel = n + 1 := ⟨fuel - 1, by omega⟩
    simp only [wf_chain, Bool.and_eq_true, decide_eq_true_eq] at hwf
    obtain ⟨⟨⟨ha, hhn⟩, hnext⟩, hwf'⟩ := hwf
    have hanotin : a ∉ b :: rest' := by
      have := hnd
      rw [List.nodup_cons] at this
      exact this.1
    have hndb : (b :: rest').Nodup := by
      rw [List.nodup_cons] at hnd
      exact hnd.2
    have hkey : do_complete_walk s a (n + 1) =
        match do_complete_walk (free_desc_op s a) b n with
        | .done q tr => .done q (a :: tr)
        | r => r := by
      rw [do_complete_walk_step s a n _ (get?_eq_some_getD s.descs a desc0 ha), hhn, hnext,
        if_pos rfl]
    have hwf1 : wf_chain (free_desc_op s a).descs (b :: rest') = true := by
      simp only [free_desc_op]
      rw [wf_chain_set_notin s.descs a _ (b :: rest') hanotin]
      exact hwf'
    have hdisj1 : ∀ x ∈ b :: rest', x ∉ a :: fl := by
      intro x hx
      rw [List.mem_cons]
      push_neg
      constructor
      · intro hxa
        exact hanotin (hxa ▸ hx)
      · exact hdisj x (List.mem_cons_of_mem a hx)
    have hsp1 : spells_free (free_desc_op s a).descs (free_desc_op s a).free_desc (a :: fl)
        = true :=
      spells_free_free_desc s a fl hsp ha (hdisj a (List.mem_cons_self a _)) hlen
    have hnx1 : nexts_lt (free_desc_op s a).descs = true :=
      nexts_lt_set s.descs a _ hnx (toU16_lt s.free_desc)
    have hlen1 : (free_desc_op s a).descs.length ≤ 65535 := by
      simpa [free_desc_op] using hlen
    obtain ⟨q, hq1, hq2, hq3, hq4, hq5, hq6, hq7, hq8⟩ :=
      ih b (free_desc_op s a) (a :: fl) n hwf1 hndb hdisj1 hsp1 hnx1 hlen1
        (by simpa using hfuel)
    refine ⟨q, ?_, ?_, ?_, ?_, hq5, hq6, hq7, hq8⟩
    · rw [hkey, hq1]
    · have hsem1 : (free_desc_op s a).sem = s.sem + 1 := rfl
      rw [hq2, hsem1]
      simp
      omega
    · have hl : ((a :: b :: rest').reverse : List Nat) ++ fl
          = (b :: rest').reverse ++ (a :: fl) := by
        simp
      rw [hl]
      exact hq3
    · rw [hq4]
      simp [free_desc_op]

/-- C5.  Descriptor accounting: consuming one used element walks the
returned chain from its head through `next` while `HAS_NEXT`, frees
each of the chain's descriptors exactly once back onto the free list
(the trace is exactly the chain, which has no duplicates) and releases
exactly one semaphore permit per freed descriptor; consequently
`free_count + in_flight = size` is preserved, the semaphore count
again equals the free-list length, and when the last in-flight chain
has been reclaimed the semaphore count equals `size`. -/
theorem c5_descriptor_accounting (s : vring_state) (fl : List Nat) (in_flight : Nat)
    (a : Nat) (rest : List Nat) (fuel : Nat)
    (hwf : wf_chain s.descs (a :: rest) = true)
    (hnd : (a :: rest).Nodup)
    (hdisj : ∀ x ∈ a :: rest, x ∉ fl)
    (hsp : spells_free s.descs s.free_desc fl = true)
    (hnx : nexts_lt s.descs = true)
    (hlen : s.descs.length ≤ 65535)
    (hfuel : rest.length < fuel)
    (hsum : fl.length + in_flight = s.descs.length)
    (hsem : s.sem = fl.length)
    (hin : (a :: rest).length ≤ in_flight) :
    ∃ q, do_complete_walk s a fuel = .done q (a :: rest) ∧
      (a :: rest).Nodup ∧
      q.sem = s.sem + (a :: rest).length ∧
      spells_free q.descs q.free_desc ((a :: rest).reverse ++ fl) = true ∧
      ((a :: rest).reverse ++ fl).length + (in_flight - (a :: rest).length)
        = q.descs.length ∧
      q.sem = ((a :: rest).reverse ++ fl).length ∧
      (in_flight - (a :: rest).length = 0 → q.sem = q.descs.length) := by
  obtain ⟨q, h1, h2, h3, h4, _, _, _, _⟩ :=
    walk_frees rest a s fl fuel hwf hnd hdisj hsp hnx hlen hfuel
  have hql : ((a :: rest).reverse ++ fl).length = rest.length + 1 + fl.length := by
    simp only [List.length_append, List.length_reverse, List.length_cons]
  have hchain : (a :: rest).length = rest.length + 1 := by simp
  rw [hchain] at hin
  refine ⟨q, h1, hnd, ?_, h3, ?_, ?_, ?_⟩
  · rw [hchain]
    exact h2
  · rw [hql, h4, hchain]
    omega
  · rw [hql, h2, hsem]
    omega
  · intro h0
    rw [hchain] at h0
    rw [h2, hsem, h4]
    omega

/-- C5 witness: a two-descriptor ring with the chain `[0, 1]` in
flight and an empty free list — the walk frees both descriptors once
each, the semaphore rises by two, and with no chains left in flight
the semaphore count equals the ring size 2. -/
theorem c5_descriptor_accounting_witness :
    ∃ q, do_complete_walk
        ⟨[⟨10, 20, true, false, false, 1⟩, ⟨11, 21, false, true, false, 0⟩],
          -1, 0, [0, 0], 0, 0⟩ 0 2 = .done q ((0 : Nat) :: [1]) ∧
      ((0 : Nat) :: [1]).Nodup ∧
      q.sem = 0 + ((0 : Nat) :: [1]).length ∧
      spells_free q.descs q.free_desc (((0 : Nat) :: [1]).reverse ++ []) = true ∧
      (((0 : Nat) :: [1]).reverse ++ []).length + (2 - ((0 : Nat) :: [1]).length)
        = q.descs.length ∧
      q.sem = (((0 : Nat) :: [1]).reverse ++ []).length ∧
      (2 - ((0 : Nat) :: [1]).length = 0 → q.sem = q.descs.length) :=
  c5_descriptor_accounting
    ⟨[⟨10, 20, true, false, false, 1⟩, ⟨11, 21, false, true, false, 0⟩],
      -1, 0, [0, 0], 0, 0⟩ [] 2 0 [1] 2
    (by decide) (by decide) (by decide) (by decide) (by decide) (by decide)
    (by decide) (by decide) (by decide) (by decide)

/-! ### RX reassembly -/

/-- One step of `rx_run`. -/
theorem rx_run_cons (hl : Nat) (st : rx_state) (b nb l : Nat)
    (es : List (Nat × Nat × Nat)) :
    rx_run hl st ((b, nb, l) :: es) =
      match rx_handle hl st b nb l with
      | none => none
      | some st1 => rx_run hl st1 es := rfl

/-- Processing the non-first buffers of a packet: while
`_remaining_buffers` matches the number of outstanding completions,
each completion appends its full length as a fragment and its buffer
as a deleter, and the last one builds the packet and chains it onto
the delivery queue. -/
theorem rx_run_tail_spec (hl : Nat) : ∀ (es : List (Nat × Nat × Nat)) (st : rx_state),
    st.remaining = es.length → es ≠ [] →
    rx_run hl st es = some
      ⟨0, st.fragments ++ es.map (fun e => ⟨e.1, 0, e.2.2⟩), [],
        st.delivered ++
          [⟨st.fragments ++ es.map (fun e => ⟨e.1, 0, e.2.2⟩),
            st.deleters ++ es.map (fun e => e.1)⟩]⟩ := by
  intro es
  induction es with
  | nil => intro st _ hne; exact absurd rfl hne
  | cons e es ih =>
    intro st hrem _
    obtain ⟨b, nb, l⟩ := e
    cases es with
    | nil =>
      have h1 : st.remaining = 1 := by simpa using hrem
      have hstep : rx_handle hl st b nb l = some (rx_append st ⟨b, 0, l⟩ b) := by
        simp [rx_handle, h1]
      rw [rx_run_cons, hstep]
      show rx_run hl (rx_append st ⟨b, 0, l⟩ b) [] = _
      simp [rx_run, rx_append, h1]
    | cons e2 tl =>
      have h1 : st.remaining = tl.length + 2 := by simpa using hrem
      have hstep : rx_handle hl st b nb l = some (rx_append st ⟨b, 0, l⟩ b) := by
        simp [rx_handle, h1]
      rw [rx_run_cons, hstep]
      show rx_run hl (rx_append st ⟨b, 0, l⟩ b) (e2 :: tl) = _
      have happ : rx_append st ⟨b, 0, l⟩ b =
          ⟨tl.length + 1, st.fragments ++ [⟨b, 0, l⟩], st.deleters ++ [b], st.delivered⟩ := by
        simp [rx_append, h1]
      rw [happ]
      refine (ih _ (by simp) (by simp)).trans ?_
      simp

/-- C6.  RX reassembly: a packet announced with `num_buffers = k` in
its first buffer's header is assembled from the `k` buffer completions
in order — the first contributes a fragment of length
`len₀ - header_len` starting past the header, each subsequent buffer a
fragment of its full completed length — and exactly one packet is
appended to the serialized delivery queue (FIFO order behind whatever
was already queued), carrying all `k` fragments in completion order
and all `k` buffers as its release hook. -/
theorem c6_rx_reassembly (hl : Nat) (st : rx_state) (b0 l0 : Nat)
    (rest : List (Nat × Nat × Nat))
    (hq : st.remaining = 0) (hhdr : hl ≤ l0) (hl0 : l0 < 2 ^ 64) :
    rx_run hl st ((b0, rest.length + 1, l0) :: rest) = some
      ⟨0, ⟨b0, hl, l0 - hl⟩ :: rest.map (fun e => ⟨e.1, 0, e.2.2⟩), [],
        st.delivered ++
          [⟨⟨b0, hl, l0 - hl⟩ :: rest.map (fun e => ⟨e.1, 0, e.2.2⟩),
            b0 :: rest.map (fun e => e.1)⟩]⟩ := by
  have hsub : sub64 l0 hl = l0 - hl := sub64_of_le l0 hl hhdr hl0
  have hstep : rx_handle hl st b0 (rest.length + 1) l0 =
      some (rx_append { st with remaining := rest.length + 1, fragments := [], deleters := [] }
        ⟨b0, hl, sub64 l0 hl⟩ b0) := by
    simp [rx_handle, hq]
  rw [rx_run_cons, hstep]
  show rx_run hl (rx_append { st with remaining := rest.length + 1, fragments := [], deleters := [] }
    ⟨b0, hl, sub64 l0 hl⟩ b0) rest = _
  cases rest with
  | nil =>
    simp [rx_run, rx_append, hsub]
  | cons e2 tl =>
    rw [rx_run_tail_spec hl (e2 :: tl)
      (rx_append { st with remaining := (e2 :: tl).length + 1, fragments := [], deleters := [] }
        ⟨b0, hl, sub64 l0 hl⟩ b0)
      (by simp [rx_append]) (by simp)]
    simp [rx_append, hsub]

/-- C6 witness: three buffers of completed lengths 4096, 4096, 200
with `num_buffers = 3` and a 12-byte header yield one delivered packet
with fragments of lengths 4084, 4096, 200 in order and all three
buffers as deleters. -/
theorem c6_rx_reassembly_witness :
    rx_run 12 ⟨0, [], [], []⟩ [(0, 3, 4096), (1, 7, 4096), (2, 9, 200)] = some
      ⟨0, [⟨0, 12, 4084⟩, ⟨1, 0, 4096⟩, ⟨2, 0, 200⟩], [],
        [⟨[⟨0, 12, 4084⟩, ⟨1, 0, 4096⟩, ⟨2, 0, 200⟩], [0, 1, 2]⟩]⟩ := by
  have h := c6_rx_reassembly 12 ⟨0, [], [], []⟩ 0 4096 [(1, 7, 4096), (2, 9, 200)]
    rfl (by norm_num) (by norm_num)
  simpa using h

end Virtio

namespace Virtio

/-! ### Chain publication (`vring::post`) -/

/-- Popping the head of a spelled free list is what `allocate_desc`
returns: the assertion passes, the head is in bounds, and the new head
spells the tail. -/
theorem allocate_desc_spec (s : vring_state) (a : Nat) (l : List Nat)
    (hsp : spells_free s.descs s.free_desc (a :: l) = true) :
    allocate_desc s
      = some (a, { s with free_desc := ((s.descs.getD a desc0).next : Int) }) ∧
    a < s.descs.length ∧
    spells_free s.descs ((s.descs.getD a desc0).next : Int) l = true := by
  simp only [spells_free, Bool.and_eq_true, decide_eq_true_eq] at hsp
  obtain ⟨⟨hf, ha⟩, hrest⟩ := hsp
  refine ⟨?_, ha, hrest⟩
  unfold allocate_desc
  have hne : s.free_desc ≠ -1 := by
    rw [hf]
    omega
  rw [if_neg hne]
  have htn : s.free_desc.toNat = a := by
    rw [hf]
    simp
  rw [htn, get?_eq_some_getD s.descs a desc0 ha]

/-- One step of the reverse buffer loop of `vring::post`. -/
theorem post_rev_cons (s : vring_state) (hp : Bool) (prev : Nat) (b : vbuffer)
    (bl : List vbuffer) :
    post_rev s hp prev (b :: bl) =
      match allocate_desc s with
      | none => none
      | some (idx, s1) =>
        post_rev
          { s1 with descs := s1.descs.set idx ⟨b.addr, b.len, hp, b.writeable, false, prev⟩ }
          true idx bl := rfl

/-- The reverse buffer loop of `vring::post`: processing `bl` (the
chain's buffers in reverse) allocates the first `bl.length` free-list
entries in order, fills each allocated descriptor from its buffer with
`has_next` false only for the first processed (= chain-last) buffer
and `next` linking to the previously allocated descriptor, returns the
last allocated index as the chain head, and touches nothing else. -/
theorem post_rev_spec : ∀ (bl : List vbuffer) (s : vring_state) (fl : List Nat)
    (hp : Bool) (prev : Nat),
    spells_free s.descs s.free_desc fl = true →
    fl.Nodup →
    bl.length ≤ fl.length →
    ∃ s', post_rev s hp prev bl =
        some (s', if bl.length = 0 then prev else fl.getD (bl.length - 1) 0) ∧
      s'.descs.length = s.descs.length ∧
      spells_free s'.descs s'.free_desc (fl.drop bl.length) = true ∧
      s'.sem = s.sem ∧ s'.avail_ring = s.avail_ring ∧ s'.avail_head = s.avail_head ∧
      s'.added = s.added ∧
      (∀ j, j < bl.length →
        s'.descs.getD (fl.getD j 0) desc0 =
          ⟨(bl.getD j vb0).addr, (bl.getD j vb0).len,
            (if j = 0 then hp else true),
            (bl.getD j vb0).writeable, false,
            (if j = 0 then prev else fl.getD (j - 1) 0)⟩) ∧
      (∀ i, i ∉ fl.take bl.length → s'.descs.getD i desc0 = s.descs.getD i desc0) := by
  intro bl
  induction bl with
  | nil =>
    intro s fl hp prev hsp _ _
    exact ⟨s, rfl, rfl, hsp, rfl, rfl, rfl, rfl,
      fun j hj => by simp at hj, fun i _ => rfl⟩
  | cons b bl' ih =>
    intro s fl hp prev hsp hnd hle
    cases fl with
    | nil => simp at hle
    | cons a fl' =>
      obtain ⟨halloc, ha, hsp'⟩ := allocate_desc_spec s a fl' hsp
      have hanotin : a ∉ fl' := by
        rw [List.nodup_cons] at hnd
        exact hnd.1
      have hnd' : fl'.Nodup := by
        rw [List.nodup_cons] at hnd
        exact hnd.2
      have hle' : bl'.length ≤ fl'.length := by
        simpa using hle
      set d : desc := ⟨b.addr, b.len, hp, b.writeable, false, prev⟩ with hd
      have hsp2 : spells_free (s.descs.set a d) ((s.descs.getD a desc0).next : Int) fl'
          = true := by
        rw [spells_free_set_notin s.descs a d fl' _ hanotin]
        exact hsp'
      obtain ⟨s', hpost, hlen', hspd, hsem, har, hah, hadd, hchar, hframe⟩ :=
        ih ⟨s.descs.set a d, ((s.descs.getD a desc0).next : Int), s.sem, s.avail_ring,
            s.avail_head, s.added⟩ fl' true a hsp2 hnd' hle'
      have hhead : (if (b :: bl').length = 0 then prev
            else (a :: fl').getD ((b :: bl').length - 1) 0)
          = (if bl'.length = 0 then a else fl'.getD (bl'.length - 1) 0) := by
        cases bl' with
        | nil => simp
        | cons c t => simp
      refine ⟨s', ?_, ?_, ?_, hsem, har, hah, hadd, ?_, ?_⟩
      · rw [post_rev_cons, halloc, hhead]
        exact hpost
      · rw [hlen']
        simp
      · simpa using hspd
      · intro j hj
        cases j with
        | zero =>
          have hna : a ∉ fl'.take bl'.length := by
            intro hm
            exact hanotin (List.take_subset bl'.length fl' hm)
          have h1 := hframe a hna
          simp only [List.getD_cons_zero]
          rw [h1, getD_set_self s.descs a d desc0 ha]
          simp [hd]
        | succ k =>
          have hk : k < bl'.length := by simpa using hj
          have h2 := hchar k hk
          simp only [List.getD_cons_succ]
          rw [h2]
          cases k with
          | zero => simp
          | succ k2 => simp
      · intro i hi
        have hi1 : i ≠ a := by
          intro h
          apply hi
          rw [h]
          simp [List.take_cons]
        have hi2 : i ∉ fl'.take bl'.length := by
          intro hm
          apply hi
          simp [List.take_cons]
          right
          exact hm
        have h3 := hframe i hi2
        rw [h3]
        exact getD_set_ne s.descs a i d desc0 (fun h => hi1 h.symm)

end Virtio

namespace Virtio

/-- C7.  `vring::post` on one chain of `n` buffers: exactly the first
`n` free-list entries are allocated (iterating the buffers in
reverse), each allocated descriptor takes `writeable`, `paddr` and
`len` from its buffer, `has_next` is set for every buffer except the
chain's last, `next` links each buffer's descriptor to the following
buffer's descriptor, the first buffer's descriptor index is written
into `avail.ring[head_counter mod size]`, and `head_counter` (and the
kick counter) advance by exactly one. -/
theorem c7_post_chain (s : vring_state) (bufs : List vbuffer) (fl : List Nat) (k : Nat)
    (hsp : spells_free s.descs s.free_desc fl = true)
    (hnd : fl.Nodup)
    (hle : bufs.length ≤ fl.length)
    (hn : 0 < bufs.length)
    (hpow : s.descs.length = 2 ^ k) :
    ∃ s', post_chain s bufs = some s' ∧
      s'.descs.length = s.descs.length ∧
      spells_free s'.descs s'.free_desc (fl.drop bufs.length) = true ∧
      (∀ i, i < bufs.length →
        s'.descs.getD (fl.getD (bufs.length - 1 - i) 0) desc0 =
          ⟨(bufs.getD i vb0).addr, (bufs.getD i vb0).len,
            (if i + 1 < bufs.length then true else false),
            (bufs.getD i vb0).writeable, false,
            (if i + 1 < bufs.length then fl.getD (bufs.length - 1 - (i + 1)) 0 else 0)⟩) ∧
      s'.avail_ring
        = s.avail_ring.set (s.avail_head % s.descs.length) (fl.getD (bufs.length - 1) 0) ∧
      s'.avail_head = (s.avail_head + 1) % 65536 ∧
      s'.added = (s.added + 1) % 65536 ∧
      s'.sem = s.sem := by
  obtain ⟨s1, hpost, hlen1, hsp1, hsem1, har1, hah1, hadd1, hchar1, _⟩ :=
    post_rev_spec bufs.reverse s fl false 0 hsp hnd (by simpa using hle)
  have hbl : bufs.reverse.length = bufs.length := by simp
  rw [hbl] at hpost hsp1 hchar1
  rw [if_neg (by omega : ¬ bufs.length = 0)] at hpost
  have hmask : masked s1.descs.length s1.avail_head = s.avail_head % s.descs.length := by
    rw [hlen1, hah1, hpow, masked]
    exact Nat.and_pow_two_sub_one_eq_mod s.avail_head k
  refine ⟨{ s1 with
      avail_ring := s1.avail_ring.set (masked s1.descs.length s1.avail_head)
        (fl.getD (bufs.length - 1) 0)
      avail_head := (s1.avail_head + 1) % 65536
      added := (s1.added + 1) % 65536 }, ?_, hlen1, hsp1, ?_, ?_, ?_, ?_, hsem1⟩
  · unfold post_chain
    rw [hpost]
  · intro i hi
    show s1.descs.getD (fl.getD (bufs.length - 1 - i) 0) desc0 = _
    have hj := hchar1 (bufs.length - 1 - i) (by omega)
    have hrev : bufs.reverse.getD (bufs.length - 1 - i) vb0 = bufs.getD i vb0 := by
      rw [getD_reverse bufs (bufs.length - 1 - i) vb0 (by omega)]
      congr 1
      omega
    rw [hrev] at hj
    by_cases hc : i + 1 < bufs.length
    · have hne : ¬ (bufs.length - 1 - i = 0) := by omega
      rw [if_neg hne, if_neg hne] at hj
      rw [if_pos hc, if_pos hc]
      have hidx : bufs.length - 1 - i - 1 = bufs.length - 1 - (i + 1) := by omega
      rw [hidx] at hj
      exact hj
    · have heq : bufs.length - 1 - i = 0 := by omega
      rw [heq] at hj
      rw [if_pos rfl, if_pos rfl] at hj
      rw [heq, if_neg hc, if_neg hc]
      exact hj
  · show s1.avail_ring.set (masked s1.descs.length s1.avail_head)
        (fl.getD (bufs.length - 1) 0) = _
    rw [har1, hmask]
  · show (s1.avail_head + 1) % 65536 = _
    rw [hah1]
  · show (s1.added + 1) % 65536 = _
    rw [hadd1]

/-- C7 witness: a ring of size 2 with free list `[0, 1]` takes a
two-buffer chain; buffer 0's descriptor is index 1 with `has_next` and
`next = 0`, buffer 1's descriptor is index 0 with `has_next` clear,
slot `avail_head % size` of the avail ring receives head index 1, and
the head counter advances by one. -/
theorem c7_post_chain_witness :
    ∃ s', post_chain
        ⟨[⟨5, 6, false, false, false, 1⟩, ⟨7, 8, false, false, false, 65535⟩],
          0, 3, [9, 9], 0, 0⟩
        [⟨100, 10, false⟩, ⟨200, 20, true⟩] = some s' ∧
      s'.descs.length
        = (⟨[⟨5, 6, false, false, false, 1⟩, ⟨7, 8, false, false, false, 65535⟩],
            0, 3, [9, 9], 0, 0⟩ : vring_state).descs.length ∧
      spells_free s'.descs s'.free_desc
        (List.drop ([⟨100, 10, false⟩, ⟨200, 20, true⟩] : List vbuffer).length [0, 1])
        = true ∧
      (∀ i, i < ([⟨100, 10, false⟩, ⟨200, 20, true⟩] : List vbuffer).length →
        s'.descs.getD
            (([0, 1] : List Nat).getD
              (([⟨100, 10, false⟩, ⟨200, 20, true⟩] : List vbuffer).length - 1 - i) 0)
            desc0 =
          ⟨(([⟨100, 10, false⟩, ⟨200, 20, true⟩] : List vbuffer).getD i vb0).addr,
            (([⟨100, 10, false⟩, ⟨200, 20, true⟩] : List vbuffer).getD i vb0).len,
            (if i + 1 < ([⟨100, 10, false⟩, ⟨200, 20, true⟩] : List vbuffer).length
              then true else false),
            (([⟨100, 10, false⟩, ⟨200, 20, true⟩] : List vbuffer).getD i vb0).writeable,
            false,
            (if i + 1 < ([⟨100, 10, false⟩, ⟨200, 20, true⟩] : List vbuffer).length
              then ([0, 1] : List Nat).getD
                (([⟨100, 10, false⟩, ⟨200, 20, true⟩] : List vbuffer).length - 1 - (i + 1)) 0
              else 0)⟩) ∧
      s'.avail_ring
        = ([9, 9] : List Nat).set (0 % 2)
            (([0, 1] : List Nat).getD
              (([⟨100, 10, false⟩, ⟨200, 20, true⟩] : List vbuffer).length - 1) 0) ∧
      s'.avail_head = (0 + 1) % 65536 ∧
      s'.added = (0 + 1) % 65536 ∧
      s'.sem = 3 :=
  c7_post_chain
    ⟨[⟨5, 6, false, false, false, 1⟩, ⟨7, 8, false, false, false, 65535⟩],
      0, 3, [9, 9], 0, 0⟩
    [⟨100, 10, false⟩, ⟨200, 20, true⟩] [0, 1] 1
    (by decide) (by decide) (by decide) (by decide) (by decide)

end Virtio
